import Mathlib

/-!
# Loki query handlers of `backend/gin/controllers/query.go`

A shallow embedding of the four handlers `LokiList`, `LokiExport`, `LokiContext` and
`LokiTail`.  A handler is a function from its collaborators (`Env`) and the request
(`Context`) to the list of effects it performs, in order: log lines, store calls, file
operations, websocket writes and the HTTP response.

Go strings are embedded as `String`; the standard library functions the handlers call
(`strings.ReplaceAll`, `strings.Trim`, `strings.Join`, `strings.Split`, `url.QueryEscape`,
`strconv.ParseBool`) are defined on the characters of the string.  The functions of the
packages `utils` and `models`, whose sources are not part of this file, are fields of `Env`.
-/

namespace Dagger

/-! ## Go standard library -/

namespace strings

/-- Does `s` start with `p`? -/
def startsWith : List Char → List Char → Bool
  | [], _ => true
  | _ :: _, [] => false
  | a :: p, b :: s => a == b && startsWith p s

/-- Left-to-right replacement of the non-overlapping occurrences of a non-empty `old`:
the counter is the number of characters of a matched occurrence still to be skipped. -/
def replaceAllAux (old new : List Char) : Nat → List Char → List Char
  | _, [] => []
  | skip + 1, _ :: cs => replaceAllAux old new skip cs
  | 0, c :: cs =>
    if startsWith old (c :: cs) then new ++ replaceAllAux old new (old.length - 1) cs
    else c :: replaceAllAux old new 0 cs

/-- Go `strings.ReplaceAll(s, old, new)`.  An empty `old` matches before every character
and at the end of the string. -/
def ReplaceAll (s old new : String) : String :=
  if old.data = [] then ⟨new.data ++ s.data.flatMap fun c => c :: new.data⟩
  else ⟨replaceAllAux old.data new.data 0 s.data⟩

/-- Go `strings.Trim(s, cutset)`: drop the leading and the trailing characters that
occur in `cutset`. -/
def Trim (s cutset : String) : String :=
  ⟨((s.data.dropWhile fun c => cutset.data.contains c).reverse.dropWhile
      fun c => cutset.data.contains c).reverse⟩

/-- Go `strings.Join(elems, sep)`. -/
def Join : List String → String → String
  | [], _ => ""
  | [a], _ => a
  | a :: b :: rest, sep => a ++ sep ++ Join (b :: rest) sep

/-- Splitting a character list at every occurrence of `sep`. -/
def splitChars (sep : Char) : List Char → List (List Char)
  | [] => [[]]
  | c :: cs =>
    if c = sep then [] :: splitChars sep cs
    else
      match splitChars sep cs with
      | [] => [[c]]
      | w :: ws => (c :: w) :: ws

/-- Go `strings.Split(s, sep)` for a separator of one character (the only use in the
handlers is `strings.Split(filtersStr, ",")`). -/
def Split (s : String) (sep : Char) : List String :=
  (splitChars sep s.data).map String.mk

end strings

namespace url

/-- Go `shouldEscape(c, encodeQueryComponent)`: everything but the unreserved characters
(ASCII letters and digits, `-`, `_`, `.`, `~`) is escaped. -/
def shouldEscape (c : Char) : Bool :=
  !(c.isAlphanum || c = '-' || c = '_' || c = '.' || c = '~')

/-- Upper-case hexadecimal digit. -/
def upperhex (n : Nat) : Char :=
  "0123456789ABCDEF".data.getD n '0'

/-- Percent-encoding of one byte. -/
def escapeByte (b : UInt8) : List Char :=
  ['%', upperhex (b.toNat / 16), upperhex (b.toNat % 16)]

/-- Escaping of one character by `url.QueryEscape`. -/
def escapeChar (c : Char) : List Char :=
  if c = ' ' then ['+']
  else if shouldEscape c then (String.utf8EncodeChar c).flatMap escapeByte
  else [c]

/-- Go `url.QueryEscape(s)`. -/
def QueryEscape (s : String) : String :=
  ⟨s.data.flatMap escapeChar⟩

end url

namespace strconv

/-- Go `strconv.ParseBool(s)`; `none` is the error case. -/
def ParseBool (s : String) : Option Bool :=
  if s = "1" ∨ s = "t" ∨ s = "T" ∨ s = "TRUE" ∨ s = "true" ∨ s = "True" then some true
  else if s = "0" ∨ s = "f" ∨ s = "F" ∨ s = "FALSE" ∨ s = "false" ∨ s = "False" then some false
  else none

end strconv

/-- Go comparison `a < b` of two strings: lexicographic on the bytes, which for UTF-8
is the lexicographic order on the code points. -/
def strLt : List Char → List Char → Bool
  | [], [] => false
  | [], _ :: _ => true
  | _ :: _, [] => false
  | a :: as, b :: bs =>
    if a.toNat < b.toNat then true
    else if b.toNat < a.toNat then false
    else strLt as bs

/-! ## Data model -/

/-- The request part of `gin.Context`: the URL query parameters, in order. -/
structure Context where
  query : List (String × String)
deriving DecidableEq

/-- The method `c.QueryArray(key)`: all values given for `key`. -/
def Context.QueryArray (c : Context) (key : String) : List String :=
  (c.query.filter fun p => p.1 = key).map Prod.snd

/-- The method `c.DefaultQuery(key, defaultValue)`: the first value given for `key`,
or the default when the key is absent. -/
def Context.DefaultQuery (c : Context) (key defaultValue : String) : String :=
  match c.QueryArray key with
  | [] => defaultValue
  | v :: _ => v

/-- One element of the store's `result` array: the stream labels and the
`[timestamp, message]` pairs. -/
structure Stream where
  stream : List (String × String)
  values : List (String × String)
deriving DecidableEq

/-- The value of `result["result"]`: `none` is `nil`. -/
abbrev QueryResult := Option (List Stream)

/-- Arguments of `utils.QueryRange(queryExpr, limit, start, end, direction)`. -/
structure QueryArgs where
  queryExpr : String
  limit : Int
  start : String
  end_ : String
  direction : String
deriving DecidableEq

/-- The record `models.LokiMessage`. -/
structure LokiMessage where
  Timestamp : String
  Message : String
deriving DecidableEq

/-- The record `utils.WsMessage`. -/
structure WsMessage where
  MessageType : Int
  Data : String
deriving DecidableEq

/-- Log levels used by the handlers. -/
inductive zap
  | ErrorLevel
  | InfoLevel
deriving DecidableEq

/-- Resources released by a deferred call. -/
inductive Resource
  | file
  | clientConnect
  | serverConnect
  | chanSendMessage
  | chanReceiveMessage
deriving DecidableEq

/-- Response bodies.  `list` and `context` stand for the rendering of the store's
result (highlighting, level classification, chart); the content of the rendering is not
modelled further. -/
inductive Body
  | null
  | list (result : QueryResult) (all : Bool)
  | context (result : QueryResult)
  | export (exist : Bool) (download : String)
  | failure (message : String)
deriving DecidableEq

/-- The observable actions of a handler. -/
inductive Effect
  /-- The logging call `utils.Log4Zap(level)` with its message -/
  | Log4Zap (level : zap) (msg : String)
  /-- A call of `utils.QueryRange`, with the value it returned -/
  | QueryRange (args : QueryArgs) (result : QueryResult)
  /-- The call `utils.LokiWebsocketClient(params)`: opening the upstream tail connection -/
  | LokiWebsocketClient (params : List (String × String))
  /-- The call `utils.LokiWebsocketServer`: upgrading the client connection -/
  | LokiWebsocketServer
  /-- Running `bash -c cmd` -/
  | Command (cmd : String)
  /-- The call `os.Create(path)` -/
  | Create (path : String)
  /-- The call `file.WriteString(s)` on the handle `os.Create` returned; on the `nil`
  handle of a failed `os.Create` the call returns an error and writes nothing -/
  | WriteString (s : String)
  /-- The call `serverConnect.WriteMessage(messageType, data)` with the error it
  returned, `none` when the frame was written -/
  | WriteMessage (messageType : Int) (data : String) (err : Option String)
  /-- A deferred `Close()` or `close(ch)` -/
  | Close (r : Resource)
  /-- The response written by `c.JSON(code, body)` -/
  | JSON (code : Nat) (body : Body)
  /-- The response written by `c.AbortWithStatusJSON(code, body)` -/
  | AbortWithStatusJSON (code : Nat) (body : Body)
  /-- A run-time panic of the handler: it ends there, without writing a response -/
  | Panic
deriving DecidableEq

/-- What the relay loop of `LokiTail` can be offered while it waits in its `select`. -/
inductive RelayEvent
  /-- The upstream reader delivers a message on `chanSendMessage`; `writeErr` is the
  error of the following `serverConnect.WriteMessage`, `none` when it succeeds -/
  | send (m : WsMessage) (writeErr : Option String)
  /-- The downstream reader delivers a message on `chanReceiveMessage` -/
  | receive (m : WsMessage)
  /-- A reader task offers a value on `chanSignal` -/
  | signal (v : Int)
deriving DecidableEq

/-- The collaborators of the handlers. -/
structure Env where
  /-- Catalog lookup `utils.Labels()` -/
  Labels : List String
  /-- Clause for a label: `utils.GetExpr(label, value)` -/
  GetExpr : String → String → String
  /-- Clause for a pod: `utils.GetPodExpr(pod)` -/
  GetPodExpr : String → String
  /-- Level clause: `utils.GenerateLevelRegex(level)` -/
  GenerateLevelRegex : String → String
  /-- Store: the result of the `n`-th call (from 0) of `utils.QueryRange` of a request -/
  QueryRange : Nat → QueryArgs → QueryResult
  /-- Whether `utils.LokiWebsocketClient(params)` returns a connection -/
  LokiWebsocketClient : List (String × String) → Bool
  /-- Whether `utils.LokiWebsocketServer` returns a connection -/
  LokiWebsocketServer : Bool
  /-- Frame transformation `utils.LokiWebsocketMessageConstruct(data, filters)` -/
  LokiWebsocketMessageConstruct : String → List String → String
  /-- Whether the calls into `utils` that render the result of `LokiList`
  (`SplitDateTime`, `InitSplitDateTime`, `TimeInPart`, `LogLevel`, the highlighting) or
  the update of the chart cell they select panic on the request and the streams -/
  renderPanics : Context → List Stream → Bool
  /-- The error of `regexp.Compile(filter)`, `none` when the pattern is valid -/
  regexpCompile : String → Option String
  /-- Go `strconv.Atoi`, errors ignored -/
  Atoi : String → Int
  /-- Order of `models.LokiMessages`: `Less(i, j)` on the records at `i` and `j` -/
  Less : LokiMessage → LokiMessage → Bool
  /-- Go `sort.Sort` on a slice with the given `Less` -/
  sortSort : (LokiMessage → LokiMessage → Bool) → List LokiMessage → List LokiMessage
  /-- Go `os.Getwd()` -/
  Getwd : String
  /-- The value of `time.Now().Format("20060102150405")` -/
  Now : String
  /-- Error of the `mkdir -p` command -/
  mkdirErr : Option String
  /-- Error of `os.Create` -/
  createErr : Option String

/-! ## Expression building -/

/-- The label loop shared by the four handlers: one clause per catalog label with a
non-empty value in the request, in catalog order. -/
def labelExprs (env : Env) (c : Context) : List String :=
  env.Labels.filterMap fun label =>
    if c.DefaultQuery label "" ≠ "" then
      some (env.GetExpr label (c.DefaultQuery label ""))
    else none

/-- The predicate list `queryExprArray` of `LokiList`, `LokiExport` and `LokiTail`:
label clauses, then the pod clause when a pod is given. -/
def queryExprArray (env : Env) (c : Context) : List String :=
  labelExprs env c ++
    (if c.DefaultQuery "pod" "" ≠ "" then [env.GetPodExpr (c.DefaultQuery "pod" "")] else [])

/-- The escaping of a filter in `LokiList` and `LokiTail`: backslashes are doubled,
then double-quotes are escaped. -/
def escapeFilter (filter : String) : String :=
  let filter := strings.ReplaceAll filter "\\" "\\\\"
  strings.ReplaceAll filter "\"" "\\\""

/-- The filter loop of `LokiList` and `LokiTail`: the first pattern that does not compile
stops the loop with the compile error. -/
def addFilters (env : Env) : String → List String → Except String String
  | queryExpr, [] => .ok queryExpr
  | queryExpr, filter :: rest =>
    match env.regexpCompile filter with
    | some err => .error err
    | none =>
      let filter := escapeFilter filter
      addFilters env (queryExpr ++ " |~ \"" ++ strings.Trim filter "" ++ "\"") rest

/-- The filter loop of `LokiExport`: no compilation, no escaping. -/
def addFiltersExport : String → List String → String
  | queryExpr, [] => queryExpr
  | queryExpr, filter :: rest =>
    addFiltersExport (queryExpr ++ " |~ \"" ++ strings.Trim filter "" ++ "\"") rest

/-- The level clause, appended when the level and its clause are both non-empty. -/
def addLevel (env : Env) (queryExpr level : String) : String :=
  if level ≠ "" then
    let levelExpr := env.GenerateLevelRegex level
    if levelExpr ≠ "" then queryExpr ++ " " ++ levelExpr else queryExpr
  else queryExpr

/-- The selector `fmt.Sprintf("{%s}", strings.Join(queryExprArray, ","))`. -/
def selector (exprs : List String) : String :=
  "\x7b" ++ strings.Join exprs "," ++ "\x7d"

/-- Boolean query parameter: `strconv.ParseBool` with the error ignored. -/
def boolQuery (c : Context) (key defaultValue : String) : Bool :=
  (strconv.ParseBool (c.DefaultQuery key defaultValue)).getD false

/-- Scan direction of `LokiList` and `LokiExport`. -/
def directionOf (dsc : Bool) : String :=
  if dsc then "backward" else "forward"

/-! ## LokiList -/

/-- The record extraction shared by the handlers: the `[timestamp, message]` pairs of
all streams, in order, without the messages that are empty after trimming newlines. -/
def extractMessages (results : List Stream) : List LokiMessage :=
  results.flatMap fun resultEle =>
    resultEle.values.filterMap fun v =>
      if (strings.Trim v.2 "\n").length = 0 then none
      else some { Timestamp := v.1, Message := v.2 }

/-- Whether the slice `v[0].(string)[0:13]` of the rendering loop of `LokiList` is out
of range: some non-blank record has a timestamp of fewer than 13 bytes. -/
def slicePanics (results : List Stream) : Bool :=
  (extractMessages results).any fun m => m.Timestamp.utf8ByteSize < 13

/-- The end of `LokiList` after the store call: the rendering of the result and the
response `c.JSON(200, data)`, or a panic while rendering, in which case no response is
written. -/
def renderList (env : Env) (c : Context) (result : QueryResult) (all : Bool) : Effect :=
  match result with
  | none => Effect.JSON 200 (Body.list none all)
  | some results =>
    if slicePanics results || env.renderPanics c results then Effect.Panic
    else Effect.JSON 200 (Body.list (some results) all)

/-- The handler `LokiList`. -/
def LokiList (env : Env) (c : Context) : List Effect :=
  let filters := c.QueryArray "filters[]"
  let level := c.DefaultQuery "level" ""
  let all := boolQuery c "all" "false"
  let dsc := boolQuery c "dsc" "true"
  let exprs := queryExprArray env c
  if exprs.length = 0 then [Effect.JSON 200 Body.null]
  else
    match addFilters env (selector exprs) filters with
    | .error err =>
      [Effect.Log4Zap zap.ErrorLevel ("regex compile error, " ++ err), Effect.JSON 200 Body.null]
    | .ok queryExpr =>
      let queryExpr := addLevel env queryExpr level
      let start := c.DefaultQuery "start" ""
      let end_ := c.DefaultQuery "end" ""
      let middleStart := c.DefaultQuery "middleStart" ""
      let middleStart := if middleStart = "" then start else middleStart
      let middleEnd := c.DefaultQuery "middleEnd" ""
      let middleEnd := if middleEnd = "" then end_ else middleEnd
      let limit := env.Atoi (c.DefaultQuery "limit" "500")
      let direction := directionOf dsc
      let args : QueryArgs := ⟨url.QueryEscape queryExpr, limit, middleStart, middleEnd, direction⟩
      let result := env.QueryRange 0 args
      [Effect.Log4Zap zap.InfoLevel ("query expr: " ++ queryExpr),
       Effect.QueryRange args result,
       renderList env c result all]

/-! ## LokiContext -/

/-- The handler `LokiContext`: label clauses only, no pod, no filters, no level. -/
def LokiContext (env : Env) (c : Context) : List Effect :=
  let exprs := labelExprs env c
  if exprs.length = 0 then [Effect.JSON 200 Body.null]
  else
    let queryExpr := selector exprs
    let start := c.DefaultQuery "start" ""
    let end_ := c.DefaultQuery "end" ""
    let limit := env.Atoi (c.DefaultQuery "limit" "10")
    let direction := if c.DefaultQuery "direction" "" = "next" then "forward" else "backward"
    let args : QueryArgs := ⟨url.QueryEscape queryExpr, limit, start, end_, direction⟩
    let result := env.QueryRange 0 args
    [Effect.Log4Zap zap.InfoLevel ("context expr: " ++ queryExpr),
     Effect.QueryRange args result,
     Effect.JSON 200 (Body.context result)]

/-! ## LokiExport -/

/-- The loop variables of `LokiExport`. -/
structure ExportState where
  queryExpr : String
  start : String
  end_ : String
  index : Nat
  length : Nat
deriving DecidableEq

/-- The sorting step of an export round: `sort.Sort(messages)` when `dsc`,
`sort.Sort(sort.Reverse(messages))` otherwise. -/
def sortPage (env : Env) (dsc : Bool) (messages : List LokiMessage) : List LokiMessage :=
  if dsc then env.sortSort env.Less messages
  else env.sortSort (fun a b => env.Less b a) messages

/-- The cursor update of an export round: `end` (when `dsc`) or `start` becomes the
timestamp of `messages[len(messages)-1]` of the sorted page.  The round sorts a page
that is not empty, and sorting in place keeps the length, so the last element exists. -/
def advance (dsc : Bool) (st : ExportState) (sorted : List LokiMessage) : ExportState :=
  match sorted.getLast? with
  | none => st
  | some last =>
    if dsc then { st with end_ := last.Timestamp } else { st with start := last.Timestamp }

/-- One pass through the body of the export loop after the two `break` tests at its
head: the log line, the re-encoding of `queryExpr`, the store call and the processing
of the page.  The result is the effects, the new loop variables and whether the loop
goes on (`false` is the `break` on a `nil` result). -/
def exportRound (env : Env) (dsc : Bool) (limit : Int) (direction : String) (call : Nat)
    (st : ExportState) : List Effect × ExportState × Bool :=
  let logLine := Effect.Log4Zap zap.InfoLevel ("download expr: " ++ st.queryExpr)
  let st := { st with queryExpr := url.QueryEscape st.queryExpr }
  let args : QueryArgs := ⟨st.queryExpr, limit, st.start, st.end_, direction⟩
  let result := env.QueryRange call args
  match result with
  | none => ([logLine, Effect.QueryRange args result], st, false)
  | some results =>
    let messages := extractMessages results
    let st := { st with length := messages.length }
    if messages.length > 0 then
      let sorted := sortPage env dsc messages
      ([logLine, Effect.QueryRange args result] ++
          sorted.map (fun message => Effect.WriteString message.Message),
        advance dsc st sorted, true)
    else ([logLine, Effect.QueryRange args result], st, true)

/-- The export loop `for { if index >= 10 { break }; index++; if length == 0 { break }; ... }`.
The first argument bounds the number of passes; `none` means the bound was reached
before the loop ended.  `call` counts the store calls made so far. -/
def exportLoop (env : Env) (dsc : Bool) (limit : Int) (direction : String) :
    Nat → Nat → ExportState → Option (List Effect × ExportState)
  | 0, _, _ => none
  | fuel + 1, call, st =>
    if st.index ≥ 10 then some ([], st)
    else
      let st := { st with index := st.index + 1 }
      if st.length = 0 then some ([], st)
      else
        match exportRound env dsc limit direction call st with
        | (effects, st, false) => some (effects, st)
        | (effects, st, true) =>
          match exportLoop env dsc limit direction fuel (call + 1) st with
          | none => none
          | some (rest, final) => some (effects ++ rest, final)

/-- The expression `LokiExport` builds before its loop. -/
def exportExpr (env : Env) (c : Context) : String :=
  addLevel env (addFiltersExport (selector (queryExprArray env c)) (c.QueryArray "filters[]"))
    (c.DefaultQuery "level" "")

/-- The loop variables of `LokiExport` at the entry of its loop. -/
def exportInit (env : Env) (c : Context) : ExportState :=
  { queryExpr := exportExpr env c
    start := c.DefaultQuery "start" ""
    end_ := c.DefaultQuery "end" ""
    index := 0
    length := 1 }

/-- The handler `LokiExport`, with a bound on the passes of its loop. -/
def LokiExportWith (fuel : Nat) (env : Env) (c : Context) : Option (List Effect) :=
  let dsc := boolQuery c "dsc" "true"
  let exprs := queryExprArray env c
  if exprs.length = 0 then some [Effect.JSON 200 Body.null]
  else
    let direction := directionOf dsc
    let limit : Int := 5000
    let exportDir := env.Getwd ++ "/static/export"
    let cmd := "mkdir -p " ++ exportDir
    match env.mkdirErr with
    | some err =>
      some [Effect.Command cmd,
        Effect.Log4Zap zap.ErrorLevel ("mkdir error, " ++ err),
        Effect.AbortWithStatusJSON 200 (Body.failure "创建文件下载目录失败")]
    | none =>
      let filename := env.Now ++ ".log"
      let absolutePath := env.Getwd ++ "/static/export/" ++ filename
      let createLog :=
        match env.createErr with
        | some err => [Effect.Log4Zap zap.ErrorLevel ("open loki csv file error, " ++ err)]
        | none => []
      match exportLoop env dsc limit direction fuel 0 (exportInit env c) with
      | none => none
      | some (effects, _) =>
        some ([Effect.Command cmd, Effect.Create absolutePath] ++ createLog ++
          [Effect.WriteString "\uFEFF"] ++ effects ++
          [Effect.JSON 200 (Body.export true filename), Effect.Close Resource.file])

/-- The handler `LokiExport`: eleven passes are enough for its loop. -/
def LokiExport (env : Env) (c : Context) : Option (List Effect) :=
  LokiExportWith 11 env c

/-! ## LokiTail -/

/-- The relay loop of `LokiTail`, `for { select { ... } }`, run on the events offered to
it.  The `select` has a case for `chanSendMessage` and a case for `chanReceiveMessage`
and none for `chanSignal`: a value offered on `chanSignal` is not taken.  The result is
the effects and whether the loop has returned (`false`: it is still waiting). -/
def relayLoop (env : Env) (filters : List String) : List RelayEvent → List Effect × Bool
  | [] => ([], false)
  | RelayEvent.send wsClientMessage writeErr :: rest =>
    let data := env.LokiWebsocketMessageConstruct wsClientMessage.Data filters
    match writeErr with
    | some err =>
      ([Effect.WriteMessage wsClientMessage.MessageType data (some err),
        Effect.Log4Zap zap.ErrorLevel ("send message to viewer error, " ++ err)], true)
    | none =>
      let (effects, returned) := relayLoop env filters rest
      (Effect.WriteMessage wsClientMessage.MessageType data none :: effects, returned)
  | RelayEvent.receive wsServerMessage :: rest =>
    if wsServerMessage.Data = "close" then ([], true)
    else relayLoop env filters rest
  | RelayEvent.signal _ :: rest => relayLoop env filters rest

/-- The deferred calls of `LokiTail` once both connections are open, in the order they
run when the handler returns. -/
def tailDeferred : List Effect :=
  [Effect.Close Resource.chanReceiveMessage, Effect.Close Resource.chanSendMessage,
   Effect.Close Resource.serverConnect, Effect.Close Resource.clientConnect]

/-- The handler `LokiTail`, run on the events offered to its relay loop. -/
def LokiTail (env : Env) (c : Context) (events : List RelayEvent) : List Effect :=
  let level := c.DefaultQuery "level" ""
  let filtersStr := c.DefaultQuery "filters" ""
  let filters := strings.Split filtersStr ','
  let exprs := queryExprArray env c
  if exprs.length = 0 then []
  else
    match addFilters env (selector exprs) filters with
    | .error err =>
      [Effect.Log4Zap zap.ErrorLevel ("regex compile error, " ++ err), Effect.JSON 200 Body.null]
    | .ok queryExpr =>
      let queryExpr := addLevel env queryExpr level
      let start := c.DefaultQuery "start" ""
      let queryExpr := url.QueryEscape queryExpr
      let params := [("query", queryExpr), ("start", start), ("limit", "500"), ("delay_for", "0")]
      if !env.LokiWebsocketClient params then [Effect.LokiWebsocketClient params]
      else if !env.LokiWebsocketServer then
        [Effect.LokiWebsocketClient params, Effect.LokiWebsocketServer,
         Effect.Close Resource.clientConnect]
      else
        let (effects, returned) := relayLoop env filters events
        [Effect.LokiWebsocketClient params, Effect.LokiWebsocketServer] ++ effects ++
          (if returned then tailDeferred else [])

/-! ## Test data -/

/-- A catalog with the one label `app`, exact-match clauses, and a store whose first
page holds three records and whose later pages are empty. -/
def sampleEnv : Env where
  Labels := ["app"]
  GetExpr := fun label value => label ++ "=\"" ++ value ++ "\""
  GetPodExpr := fun pod => "k8s_pod_name=\"" ++ pod ++ "\""
  GenerateLevelRegex := fun level => if level = "error" then "|~ \"(?i)error\"" else ""
  QueryRange := fun n _ =>
    if n = 0 then
      some [⟨[], [("1600000000000000002", "b\n"), ("1600000000000000001", "a\n"),
        ("1600000000000000005", "\n"), ("1600000000000000003", "c\n")]⟩]
    else some []
  LokiWebsocketClient := fun _ => true
  LokiWebsocketServer := true
  LokiWebsocketMessageConstruct := fun data _ => "<" ++ data ++ ">"
  renderPanics := fun _ _ => false
  regexpCompile := fun filter => if filter = "(" then some "missing closing )" else none
  Atoi := fun s => if s = "500" then 500 else 10
  Less := fun a b => strLt b.Timestamp.data a.Timestamp.data
  sortSort := fun less l => l.insertionSort fun a b => ¬ less b a
  Getwd := "/srv"
  Now := "20200101000000"
  mkdirErr := none
  createErr := none

/-- The test collaborators with a store that has no record at all. -/
def emptyStoreEnv : Env :=
  { sampleEnv with QueryRange := fun _ _ => some [] }

/-- The test collaborators with a store whose page holds two non-blank records between
a blank record that is older and a blank record that is newer than both. -/
def blankEdgeEnv : Env :=
  { sampleEnv with
    QueryRange := fun _ _ =>
      some [⟨[], [("1600000000000000003", "c\n"), ("1600000000000000009", "\n"),
        ("1600000000000000002", "b\n"), ("1600000000000000001", "\n")]⟩] }

/-! ## Observations on effect lists and specification-side definitions -/

/-- The store calls among the effects, each with the value it returned. -/
def storeCalls (effects : List Effect) : List (QueryArgs × QueryResult) :=
  effects.filterMap fun e =>
    match e with
    | Effect.QueryRange args result => some (args, result)
    | _ => none

/-- The strings passed to `file.WriteString`, in order. -/
def written (effects : List Effect) : List String :=
  effects.filterMap fun e =>
    match e with
    | Effect.WriteString s => some s
    | _ => none

/-- The frames written to the downstream connection: the `WriteMessage` calls that
returned no error. -/
def framesWritten (effects : List Effect) : List (Int × String) :=
  effects.filterMap fun e =>
    match e with
    | Effect.WriteMessage messageType data none => some (messageType, data)
    | _ => none

/-- A page is empty when the store returned no result or no non-blank record. -/
def pageEmpty (result : QueryResult) : Bool :=
  match result with
  | none => true
  | some results => (extractMessages results).length = 0

/-- Number of records of a store result. -/
def recordCount (result : QueryResult) : Nat :=
  match result with
  | none => 0
  | some results => (results.map fun resultEle => resultEle.values.length).sum

/-- The content-filter clause of one filter, as the specification writes it. -/
def filterClause (filter : String) : String :=
  " |~ \"" ++ escapeFilter filter ++ "\""

/-- The expression of the specification: the selector, the filter clauses in input
order, then the level clause when the level token and its clause are non-empty. -/
def specExpr (clauses filters : List String) (level levelExpr : String) : String :=
  "\x7b" ++ ",".intercalate clauses ++ "\x7d" ++ String.join (filters.map filterClause) ++
    (if level ≠ "" ∧ levelExpr ≠ "" then " " ++ levelExpr else "")

/-- Escaping of one character by `escapeFilter`. -/
def escapeFilterChar (c : Char) : List Char :=
  if c = '\\' then ['\\', '\\'] else if c = '"' then ['\\', '"'] else [c]

/-- Modelled from the spec: the store's string unescaping, which is not part of the
sources.  Reading left to right, backslash-backslash gives a backslash and
backslash-quote gives a quote; every other character is kept. -/
def unescape : List Char → List Char
  | [] => []
  | [c] => [c]
  | c :: d :: rest =>
    if c = '\\' ∧ (d = '\\' ∨ d = '"') then d :: unescape rest
    else c :: unescape (d :: rest)

/-- The number of backslashes at the end of a character list. -/
def trailingBackslashes (l : List Char) : Nat :=
  (l.reverse.takeWhile fun c => c = '\\').length

/-- The events that end the relay session: a downstream message with payload `close`,
or an upstream message whose forwarding write fails. -/
def endsRelay : RelayEvent → Bool
  | RelayEvent.receive m => m.Data = "close"
  | RelayEvent.send _ (some _) => true
  | _ => false

/-- The frame the relay writes for an event: the transformed upstream message with its
message type; nothing for the other events. -/
def frameOf (env : Env) (filters : List String) : RelayEvent → Option (Int × String)
  | RelayEvent.send m _ => some (m.MessageType, env.LokiWebsocketMessageConstruct m.Data filters)
  | _ => none

/-- The frames of the specification: one per upstream message that comes before the
first event ending the session, in the order received. -/
def relaySpec (env : Env) (filters : List String) (events : List RelayEvent) :
    List (Int × String) :=
  (events.takeWhile fun e => !endsRelay e).filterMap (frameOf env filters)

/-- The arguments of the store call of an export round entered with loop variables `st`. -/
def roundArgs (limit : Int) (direction : String) (st : ExportState) : QueryArgs :=
  ⟨url.QueryEscape st.queryExpr, limit, st.start, st.end_, direction⟩

/-- The messages an export round writes for the result of its store call: the sorted
non-blank records of the page. -/
def pageWrites (env : Env) (dsc : Bool) (result : QueryResult) : List String :=
  match result with
  | none => []
  | some results =>
    if (extractMessages results).length > 0 then
      (sortPage env dsc (extractMessages results)).map fun m => m.Message
    else []

/-- What holds of the effects of the export loop entered with call counter `call` and
loop variables `st`. -/
structure LoopFacts (env : Env) (dsc : Bool) (limit : Int) (direction : String) (call : Nat)
    (st : ExportState) (effects : List Effect) : Prop where
  calls_le : (storeCalls effects).length ≤ 10 - st.index
  nothing : st.length = 0 → effects = []
  first : st.index < 10 → st.length ≠ 0 →
    (storeCalls effects).head? = some (roundArgs limit direction st,
      env.QueryRange call (roundArgs limit direction st))
  nonempty_before_last : ∀ r ∈ (storeCalls effects).dropLast, pageEmpty r.2 = false
  last_empty : (storeCalls effects).length < 10 - st.index →
    ∀ r, (storeCalls effects).getLast? = some r → pageEmpty r.2 = true
  results : ∀ i r, (storeCalls effects)[i]? = some r → r.2 = env.QueryRange (call + i) r.1
  exprs : ∀ i r, (storeCalls effects)[i]? = some r →
    r.1.queryExpr = url.QueryEscape^[i + 1] st.queryExpr
  uniform : ∀ r ∈ storeCalls effects, r.1.limit = limit ∧ r.1.direction = direction
  writes : written effects = (storeCalls effects).flatMap fun r => pageWrites env dsc r.2

/-- The value of a decimal string, such as a nanosecond Unix epoch. -/
def decVal (s : String) : Nat :=
  s.data.foldl (fun n c => 10 * n + (c.toNat - 48)) 0

/-- A timestamp of `n` decimal digits. -/
def IsTimestamp (n : Nat) (s : String) : Prop :=
  s.data.length = n ∧ ∀ c ∈ s.data, 48 ≤ c.toNat ∧ c.toNat ≤ 57

/-- The contract of Go `sort.Sort`: the result is a permutation of the input, and when
`less` is a strict weak ordering no element is less than one before it. -/
def SortContract (sort : (LokiMessage → LokiMessage → Bool) → List LokiMessage →
    List LokiMessage) : Prop :=
  ∀ less l, (sort less l).Perm l ∧
    ((∀ a b, less a b = true → less b a = false) →
      (∀ a b c, less b a = false → less c b = false → less c a = false) →
      (sort less l).Pairwise fun a b => less b a = false)

instance (n : Nat) (s : String) : Decidable (IsTimestamp n s) := by
  unfold IsTimestamp
  infer_instance

/-! ## Standard library facts -/

theorem dropWhile_false {α : Type} (l : List α) : l.dropWhile (fun _ => false) = l := by
  cases l <;> simp [List.dropWhile]

theorem Trim_empty_cutset (s : String) : strings.Trim s "" = s := by
  cases s with
  | mk d => simp [strings.Trim, dropWhile_false]

theorem join_foldl (l : List String) (acc : String) :
    List.foldl (fun r s => r ++ s) acc l = acc ++ String.join l := by
  induction l generalizing acc with
  | nil => simp [String.join]
  | cons a rest ih =>
    have h1 := ih (acc ++ a)
    have h2 := ih ("" ++ a)
    simp only [String.join, List.foldl_cons] at *
    rw [h1, h2]
    simp [String.append_assoc]

theorem join_cons (a : String) (l : List String) :
    String.join (a :: l) = a ++ String.join l := by
  rw [String.join, List.foldl_cons, join_foldl]
  simp

theorem Join_eq_intercalate (elems : List String) (sep : String) :
    strings.Join elems sep = sep.intercalate elems := by
  have go : ∀ (l : List String) (acc : String),
      String.intercalate.go acc sep l = acc ++ (if l = [] then "" else sep ++ strings.Join l sep) := by
    intro l
    induction l with
    | nil => intro acc; simp [String.intercalate.go]
    | cons a rest ih =>
      intro acc
      cases rest with
      | nil => simp [String.intercalate.go, strings.Join, String.append_assoc]
      | cons b rest =>
        rw [String.intercalate.go, ih]
        simp [strings.Join, String.append_assoc]
  cases elems with
  | nil => rfl
  | cons a rest =>
    cases rest with
    | nil => simp [strings.Join, String.intercalate, String.intercalate.go]
    | cons b rest =>
      simp only [String.intercalate, go, strings.Join]
      simp [String.append_assoc]

/-! ## Expression building -/

theorem labelExprs_eq_nil (env : Env) (c : Context)
    (h : ∀ label ∈ env.Labels, c.DefaultQuery label "" = "") : labelExprs env c = [] := by
  unfold labelExprs
  rw [List.filterMap_eq_nil_iff]
  intro label hl
  simp [h label hl]

theorem queryExprArray_eq_nil (env : Env) (c : Context)
    (h : ∀ label ∈ env.Labels, c.DefaultQuery label "" = "")
    (hpod : c.DefaultQuery "pod" "" = "") : queryExprArray env c = [] := by
  simp [queryExprArray, labelExprs_eq_nil env c h, hpod]

theorem addFilters_valid (env : Env) (filters : List String)
    (h : ∀ f ∈ filters, env.regexpCompile f = none) (queryExpr : String) :
    addFilters env queryExpr filters
      = .ok (queryExpr ++ String.join (filters.map filterClause)) := by
  induction filters generalizing queryExpr with
  | nil => simp [addFilters, String.join]
  | cons f rest ih =>
    have hf : env.regexpCompile f = none := h f (List.mem_cons_self _ _)
    have hrest : ∀ g ∈ rest, env.regexpCompile g = none :=
      fun g hg => h g (List.mem_cons_of_mem _ hg)
    simp only [addFilters, hf, ih hrest, Trim_empty_cutset, List.map_cons]
    congr 1
    simp [join_cons, filterClause, String.append_assoc]

theorem addFilters_invalid (env : Env) (filters : List String)
    (h : ∃ f ∈ filters, env.regexpCompile f ≠ none) (queryExpr : String) :
    ∃ err, addFilters env queryExpr filters = .error err := by
  induction filters generalizing queryExpr with
  | nil => simp at h
  | cons f rest ih =>
    cases hf : env.regexpCompile f with
    | some err => exact ⟨err, by simp [addFilters, hf]⟩
    | none =>
      obtain ⟨g, hg, hbad⟩ := h
      have hg2 : g ∈ rest := by
        rcases List.mem_cons.mp hg with rfl | hg
        · exact absurd hf hbad
        · exact hg
      obtain ⟨err, herr⟩ := ih ⟨g, hg2, hbad⟩ (queryExpr ++ " |~ \"" ++
        strings.Trim (escapeFilter f) "" ++ "\"")
      exact ⟨err, by simp [addFilters, hf, herr]⟩

/-! ## Empty predicate list, invalid filters, the built expression -/

/-- C1: when no catalog label has a non-empty value in the request and no pod is given,
`LokiList`, `LokiExport` and `LokiContext` perform the single effect of answering JSON
`null`, and `LokiTail` performs no effect at all (a bare return): no `QueryRange` call,
no upstream tail connection, no file creation. -/
theorem empty_predicates_no_store_call (env : Env) (c : Context) (events : List RelayEvent)
    (hlabels : ∀ label ∈ env.Labels, c.DefaultQuery label "" = "")
    (hpod : c.DefaultQuery "pod" "" = "") :
    LokiList env c = [Effect.JSON 200 Body.null] ∧
    LokiExport env c = some [Effect.JSON 200 Body.null] ∧
    LokiContext env c = [Effect.JSON 200 Body.null] ∧
    LokiTail env c events = [] := by
  have h1 := queryExprArray_eq_nil env c hlabels hpod
  have h2 := labelExprs_eq_nil env c hlabels
  refine ⟨?_, ?_, ?_, ?_⟩
  · simp [LokiList, h1]
  · simp [LokiExport, LokiExportWith, h1]
  · simp [LokiContext, h2]
  · simp [LokiTail, h1]

theorem empty_predicates_no_store_call_witness :
    LokiList sampleEnv ⟨[("app", ""), ("filters[]", "x")]⟩ = [Effect.JSON 200 Body.null] ∧
    LokiExport sampleEnv ⟨[("app", ""), ("filters[]", "x")]⟩
      = some [Effect.JSON 200 Body.null] ∧
    LokiContext sampleEnv ⟨[("app", ""), ("filters[]", "x")]⟩ = [Effect.JSON 200 Body.null] ∧
    LokiTail sampleEnv ⟨[("app", ""), ("filters[]", "x")]⟩ [RelayEvent.send ⟨1, "m"⟩ none] = [] :=
  empty_predicates_no_store_call sampleEnv ⟨[("app", ""), ("filters[]", "x")]⟩
    [RelayEvent.send ⟨1, "m"⟩ none] (by decide) (by decide)

/-- C2: with a non-empty predicate list, `LokiList` and `LokiTail` answer JSON `null`
after the log line of the compile error, and perform nothing else, as soon as one
filter pattern anywhere in the list does not compile; when every pattern compiles,
`LokiList` calls `QueryRange` and `LokiTail` opens the upstream tail connection. -/
theorem invalid_filter_no_store_call (env : Env) (c : Context) (events : List RelayEvent)
    (hne : queryExprArray env c ≠ []) :
    ((∃ f ∈ c.QueryArray "filters[]", env.regexpCompile f ≠ none) →
      ∃ err, LokiList env c =
        [Effect.Log4Zap zap.ErrorLevel ("regex compile error, " ++ err),
         Effect.JSON 200 Body.null]) ∧
    ((∀ f ∈ c.QueryArray "filters[]", env.regexpCompile f = none) →
      ∃ args, Effect.QueryRange args (env.QueryRange 0 args) ∈ LokiList env c) ∧
    ((∃ f ∈ strings.Split (c.DefaultQuery "filters" "") ',', env.regexpCompile f ≠ none) →
      ∃ err, LokiTail env c events =
        [Effect.Log4Zap zap.ErrorLevel ("regex compile error, " ++ err),
         Effect.JSON 200 Body.null]) ∧
    ((∀ f ∈ strings.Split (c.DefaultQuery "filters" "") ',', env.regexpCompile f = none) →
      ∃ params, Effect.LokiWebsocketClient params ∈ LokiTail env c events) := by
  have hlen : (queryExprArray env c).length ≠ 0 := by
    simpa [List.length_eq_zero] using hne
  refine ⟨?_, ?_, ?_, ?_⟩
  · intro h
    obtain ⟨err, herr⟩ := addFilters_invalid env _ h (selector (queryExprArray env c))
    exact ⟨err, by simp [LokiList, hlen, herr]⟩
  · intro h
    have hok := addFilters_valid env _ h (selector (queryExprArray env c))
    simp only [LokiList, hlen, hok, if_false]
    exact ⟨_, List.mem_cons_of_mem _ (List.mem_cons_self _ _)⟩
  · intro h
    obtain ⟨err, herr⟩ := addFilters_invalid env _ h (selector (queryExprArray env c))
    exact ⟨err, by simp [LokiTail, hlen, herr]⟩
  · intro h
    have hok := addFilters_valid env _ h (selector (queryExprArray env c))
    simp only [LokiTail, hlen, hok, if_false]
    refine ⟨[("query", url.QueryEscape (addLevel env (selector (queryExprArray env c) ++
      String.join (List.map filterClause (strings.Split (c.DefaultQuery "filters" "") ',')))
      (c.DefaultQuery "level" ""))), ("start", c.DefaultQuery "start" ""), ("limit", "500"),
      ("delay_for", "0")], ?_⟩
    split
    · exact List.mem_singleton.mpr rfl
    · split
      · simp
      · simp

theorem invalid_filter_no_store_call_witness :
    (∃ err, LokiList sampleEnv ⟨[("app", "foo"), ("filters[]", "a"), ("filters[]", "(")]⟩ =
        [Effect.Log4Zap zap.ErrorLevel ("regex compile error, " ++ err),
         Effect.JSON 200 Body.null]) ∧
    (∃ args, Effect.QueryRange args (sampleEnv.QueryRange 0 args) ∈
        LokiList sampleEnv ⟨[("app", "foo"), ("filters[]", "a"), ("filters[]", "b")]⟩) ∧
    (∃ err, LokiTail sampleEnv ⟨[("app", "foo"), ("filters", "a,b,(")]⟩ [] =
        [Effect.Log4Zap zap.ErrorLevel ("regex compile error, " ++ err),
         Effect.JSON 200 Body.null]) ∧
    (∃ params, Effect.LokiWebsocketClient params ∈
        LokiTail sampleEnv ⟨[("app", "foo"), ("filters", "a,b")]⟩ []) :=
  ⟨(invalid_filter_no_store_call sampleEnv
      ⟨[("app", "foo"), ("filters[]", "a"), ("filters[]", "(")]⟩ [] (by decide)).1
      ⟨"(", by decide, by decide⟩,
   (invalid_filter_no_store_call sampleEnv
      ⟨[("app", "foo"), ("filters[]", "a"), ("filters[]", "b")]⟩ [] (by decide)).2.1
      (by decide),
   (invalid_filter_no_store_call sampleEnv
      ⟨[("app", "foo"), ("filters", "a,b,(")]⟩ [] (by decide)).2.2.1
      ⟨"(", by decide, by decide⟩,
   (invalid_filter_no_store_call sampleEnv
      ⟨[("app", "foo"), ("filters", "a,b")]⟩ [] (by decide)).2.2.2
      (by decide)⟩

theorem LokiList_short_timestamp_panics :
    LokiList { sampleEnv with QueryRange := fun _ _ => some [⟨[], [("123", "x")]⟩] }
        ⟨[("app", "foo")]⟩
      = [Effect.Log4Zap zap.InfoLevel "query expr: \x7bapp=\"foo\"\x7d",
         Effect.QueryRange ⟨"%7Bapp%3D%22foo%22%7D", 500, "", "", "backward"⟩
           (some [⟨[], [("123", "x")]⟩]),
         Effect.Panic] := by
  decide

/-! ## Escaping of filters -/

theorem replaceAllAux_single (a : Char) (new s : List Char) :
    strings.replaceAllAux [a] new 0 s = s.flatMap fun c => if c = a then new else [c] := by
  induction s with
  | nil => simp [strings.replaceAllAux]
  | cons c cs ih =>
    by_cases h : c = a
    · subst h
      simp [strings.replaceAllAux, strings.startsWith, ih]
    · have h2 : ¬ a = c := fun e => h e.symm
      simp [strings.replaceAllAux, strings.startsWith, ih, h, h2]

theorem escapeFilter_data (s : String) :
    (escapeFilter s).data = s.data.flatMap escapeFilterChar := by
  have h1 : ("\\" : String).data = ['\\'] := rfl
  have h2 : ("\"" : String).data = ['"'] := rfl
  have h3 : ("\\\\" : String).data = ['\\', '\\'] := rfl
  have h4 : ("\\\"" : String).data = ['\\', '"'] := rfl
  simp only [escapeFilter, strings.ReplaceAll, h1, h2, h3, h4, List.cons_ne_nil, if_false,
    replaceAllAux_single, List.flatMap_assoc]
  congr 1
  funext c
  by_cases hb : c = '\\'
  · subst hb
    simp [escapeFilterChar]
  · by_cases hq : c = '"'
    · subst hq
      simp [escapeFilterChar]
    · simp [escapeFilterChar, hb, hq]

theorem unescape_escape (l : List Char) : unescape (l.flatMap escapeFilterChar) = l := by
  induction l with
  | nil => simp [unescape]
  | cons c cs ih =>
    rw [List.flatMap_cons]
    by_cases hb : c = '\\'
    · subst hb
      simp [escapeFilterChar, unescape, ih]
    · by_cases hq : c = '"'
      · subst hq
        simp [escapeFilterChar, unescape, ih]
      · simp only [escapeFilterChar, hb, hq, if_false, List.singleton_append]
        cases hrest : cs.flatMap escapeFilterChar with
        | nil =>
          rw [hrest] at ih
          simp [unescape, ← ih]
        | cons d ds =>
          rw [hrest] at ih
          simp [unescape, hb, ih]

theorem trailingBackslashes_snoc (l : List Char) (c : Char) :
    trailingBackslashes (l ++ [c]) = if c = '\\' then trailingBackslashes l + 1 else 0 := by
  by_cases h : c = '\\'
  · simp [trailingBackslashes, List.takeWhile, h]
  · simp [trailingBackslashes, List.takeWhile, h]

theorem quote_after_odd_backslashes (l : List Char) :
    ∀ acc pre post, trailingBackslashes acc % 2 = 0 →
      l.flatMap escapeFilterChar = pre ++ '"' :: post →
      trailingBackslashes (acc ++ pre) % 2 = 1 := by
  induction l with
  | nil =>
    intro acc pre post _ h
    simp at h
  | cons c cs ih =>
    intro acc pre post hacc h
    rw [List.flatMap_cons] at h
    by_cases hb : c = '\\'
    · subst hb
      simp only [escapeFilterChar, if_true, List.cons_append, List.nil_append] at h
      match pre, h with
      | [], h => simp at h
      | [_], h => simp at h
      | p :: q :: pre2, h =>
        simp only [List.cons_append, List.cons.injEq] at h
        obtain ⟨hp, hq, hrest⟩ := h
        subst hp; subst hq
        have hacc2 : trailingBackslashes (acc ++ ['\\', '\\']) % 2 = 0 := by
          have e : acc ++ ['\\', '\\'] = (acc ++ ['\\']) ++ ['\\'] := by simp
          rw [e, trailingBackslashes_snoc, trailingBackslashes_snoc]
          simp; omega
        have := ih (acc ++ ['\\', '\\']) pre2 post hacc2 hrest
        simpa using this
    · by_cases hq : c = '"'
      · subst hq
        simp only [escapeFilterChar, hb, if_false, if_true, List.cons_append,
          List.nil_append] at h
        match pre, h with
        | [], h => simp at h
        | [p], h =>
          simp only [List.cons_append, List.nil_append, List.cons.injEq] at h
          obtain ⟨hp, -⟩ := h
          subst hp
          rw [trailingBackslashes_snoc]
          simp; omega
        | p :: q :: pre2, h =>
          simp only [List.cons_append, List.cons.injEq] at h
          obtain ⟨hp, hq2, hrest⟩ := h
          subst hp; subst hq2
          have hacc2 : trailingBackslashes (acc ++ ['\\', '"']) % 2 = 0 := by
            have e : acc ++ ['\\', '"'] = (acc ++ ['\\']) ++ ['"'] := by simp
            rw [e, trailingBackslashes_snoc]
            simp
          have := ih (acc ++ ['\\', '"']) pre2 post hacc2 hrest
          simpa using this
      · simp only [escapeFilterChar, hb, hq, if_false, List.singleton_append] at h
        match pre, h with
        | [], h =>
          simp only [List.nil_append, List.cons.injEq] at h
          exact absurd h.1 hq
        | p :: pre2, h =>
          simp only [List.cons_append, List.cons.injEq] at h
          obtain ⟨hp, hrest⟩ := h
          subst hp
          have hacc2 : trailingBackslashes (acc ++ [c]) % 2 = 0 := by
            rw [trailingBackslashes_snoc]
            simp [hb]
          have := ih (acc ++ [c]) pre2 post hacc2 hrest
          simpa using this

theorem trailingBackslashes_escape (l : List Char) :
    ∀ acc, trailingBackslashes acc % 2 = 0 →
      trailingBackslashes (acc ++ l.flatMap escapeFilterChar) % 2 = 0 := by
  induction l with
  | nil =>
    intro acc h
    simpa using h
  | cons c cs ih =>
    intro acc hacc
    rw [List.flatMap_cons, ← List.append_assoc]
    apply ih
    by_cases hb : c = '\\'
    · subst hb
      have e : acc ++ escapeFilterChar '\\' = (acc ++ ['\\']) ++ ['\\'] := by
        simp [escapeFilterChar]
      rw [e, trailingBackslashes_snoc, trailingBackslashes_snoc]
      simp; omega
    · by_cases hq : c = '"'
      · subst hq
        have e : acc ++ escapeFilterChar '"' = (acc ++ ['\\']) ++ ['"'] := by
          simp [escapeFilterChar]
        rw [e, trailingBackslashes_snoc]
        simp
      · have e : acc ++ escapeFilterChar c = acc ++ [c] := by
          simp [escapeFilterChar, hb, hq]
        rw [e, trailingBackslashes_snoc]
        simp [hb]

theorem closing_quote_is_last (e : List Char)
    (hodd : ∀ pre post, e = pre ++ '"' :: post → trailingBackslashes pre % 2 = 1)
    (pre post : List Char) (h : e ++ ['"'] = pre ++ '"' :: post)
    (heven : trailingBackslashes pre % 2 = 0) : pre = e ∧ post = [] := by
  rcases List.append_eq_append_iff.mp h with ⟨a, hpre, hq⟩ | ⟨c, he, hq⟩
  · cases a with
    | nil =>
      simp only [List.nil_append, List.cons.injEq, true_and] at hq
      exact ⟨by simpa using hpre, hq.symm⟩
    | cons x xs =>
      have := congrArg List.length hq
      simp at this
  · cases c with
    | nil =>
      simp only [List.nil_append, List.cons.injEq, true_and] at hq
      exact ⟨by simpa using he.symm, hq⟩
    | cons x xs =>
      simp only [List.cons_append, List.cons.injEq] at hq
      obtain ⟨hx, -⟩ := hq
      subst hx
      have := hodd pre xs he
      omega

/-- C3: for every filter `s`, the store's unescaping applied to the escaped text that
`LokiList` embeds gives back `s`; every double-quote of the escaped text is preceded by
an odd number of backslashes (wherever the escaped text splits as `pre`, a double-quote,
`post`, the run of backslashes that ends `pre` has odd length); the escaped text ends
with an even number of backslashes, so the quote `LokiList` appends after it is not
escaped; and the only double-quote of the escaped text followed by that quote which has
an even number of backslashes before it is the appended one: the clause is closed only
by its final quote. -/
theorem escapeFilter_roundtrip (s : String) :
    unescape (escapeFilter s).data = s.data ∧
    (∀ pre post, (escapeFilter s).data = pre ++ '"' :: post →
      trailingBackslashes pre % 2 = 1) ∧
    trailingBackslashes (escapeFilter s).data % 2 = 0 ∧
    (∀ pre post, (escapeFilter s).data ++ ['"'] = pre ++ '"' :: post →
      trailingBackslashes pre % 2 = 0 → pre = (escapeFilter s).data ∧ post = []) := by
  have hodd : ∀ pre post, (escapeFilter s).data = pre ++ '"' :: post →
      trailingBackslashes pre % 2 = 1 := by
    intro pre post h
    rw [escapeFilter_data] at h
    have := quote_after_odd_backslashes s.data [] pre post (by simp [trailingBackslashes]) h
    simpa using this
  refine ⟨?_, hodd, ?_, ?_⟩
  · rw [escapeFilter_data, unescape_escape]
  · rw [escapeFilter_data]
    have := trailingBackslashes_escape s.data [] (by simp [trailingBackslashes])
    simpa using this
  · intro pre post h heven
    exact closing_quote_is_last _ hodd pre post h heven

theorem escapeFilter_roundtrip_witness :
    unescape (escapeFilter "a\\\"b\\").data = "a\\\"b\\".data ∧
    trailingBackslashes "a\\\\\\".data % 2 = 1 ∧
    trailingBackslashes (escapeFilter "a\\\"b\\").data % 2 = 0 ∧
    ("a\\\\\\\"b\\\\".data = (escapeFilter "a\\\"b\\").data ∧ ([] : List Char) = []) :=
  ⟨(escapeFilter_roundtrip "a\\\"b\\").1,
   (escapeFilter_roundtrip "a\\\"b\\").2.1 "a\\\\\\".data "b\\\\".data (by decide),
   (escapeFilter_roundtrip "a\\\"b\\").2.2.1,
   (escapeFilter_roundtrip "a\\\"b\\").2.2.2 "a\\\\\\\"b\\\\".data [] (by decide) (by decide)⟩

/-! ## The tail relay -/

theorem relaySpec_cons (env : Env) (filters : List String) (e : RelayEvent)
    (rest : List RelayEvent) :
    relaySpec env filters (e :: rest) =
      if endsRelay e then []
      else
        match frameOf env filters e with
        | some frame => frame :: relaySpec env filters rest
        | none => relaySpec env filters rest := by
  unfold relaySpec
  rw [List.takeWhile_cons]
  by_cases h : endsRelay e = true
  · simp [h]
  · simp only [h, Bool.not_eq_true] at *
    simp only [h, Bool.not_false, if_true, List.filterMap_cons, Bool.false_eq_true, if_false]
    split <;> simp [*]

theorem relayLoop_frames (env : Env) (filters : List String) (events : List RelayEvent) :
    framesWritten (relayLoop env filters events).1 = relaySpec env filters events := by
  induction events with
  | nil => rfl
  | cons e rest ih =>
    rw [relaySpec_cons, ← ih]
    cases e with
    | send m writeErr =>
      cases writeErr with
      | some err => simp [relayLoop, framesWritten, endsRelay]
      | none => simp [relayLoop, framesWritten, endsRelay, frameOf]
    | receive m =>
      by_cases h : m.Data = "close"
      · simp [relayLoop, framesWritten, endsRelay, h]
      · simp [relayLoop, endsRelay, h, frameOf]
    | signal v => simp [relayLoop, endsRelay, frameOf]

theorem relayLoop_skip_receive (env : Env) (filters : List String) (m : WsMessage)
    (h : m.Data ≠ "close") (pre post : List RelayEvent) :
    relayLoop env filters (pre ++ RelayEvent.receive m :: post)
      = relayLoop env filters (pre ++ post) := by
  induction pre with
  | nil => simp [relayLoop, h]
  | cons e rest ih =>
    cases e with
    | send m2 writeErr =>
      cases writeErr with
      | some err => simp [relayLoop]
      | none => simp [relayLoop, ih]
    | receive m2 =>
      by_cases h2 : m2.Data = "close"
      · simp [relayLoop, h2]
      · simp [relayLoop, h2, ih]
    | signal v => simp [relayLoop, ih]

theorem relayLoop_close (env : Env) (filters : List String) (m : WsMessage)
    (h : m.Data = "close") (pre post : List RelayEvent) :
    (relayLoop env filters (pre ++ RelayEvent.receive m :: post)).1
        = (relayLoop env filters pre).1 ∧
      (relayLoop env filters (pre ++ RelayEvent.receive m :: post)).2 = true := by
  induction pre with
  | nil => simp [relayLoop, h]
  | cons e rest ih =>
    cases e with
    | send m2 writeErr =>
      cases writeErr with
      | some err => simp [relayLoop]
      | none => simp [relayLoop, ih]
    | receive m2 =>
      by_cases h2 : m2.Data = "close"
      · simp [relayLoop, h2]
      · simp [relayLoop, h2, ih]
    | signal v => simp [relayLoop, ih]

/-- C7: on every sequence of events, the frames the relay loop of `LokiTail` writes to
the downstream connection are the transformed upstream messages received before the
first downstream `close` message or failed write, one frame each, in the order received
and with their message types; a downstream message other than `close` changes nothing,
and after a downstream `close` the loop has returned having written only what it wrote
for the events before it. -/
theorem relay_forwards_in_order (env : Env) (filters : List String)
    (events : List RelayEvent) :
    framesWritten (relayLoop env filters events).1 = relaySpec env filters events ∧
    (∀ pre post m, m.Data ≠ "close" →
      relayLoop env filters (pre ++ RelayEvent.receive m :: post)
        = relayLoop env filters (pre ++ post)) ∧
    (∀ pre post m, m.Data = "close" →
      (relayLoop env filters (pre ++ RelayEvent.receive m :: post)).1
          = (relayLoop env filters pre).1 ∧
        (relayLoop env filters (pre ++ RelayEvent.receive m :: post)).2 = true) :=
  ⟨relayLoop_frames env filters events,
   fun pre post m h => relayLoop_skip_receive env filters m h pre post,
   fun pre post m h => relayLoop_close env filters m h pre post⟩

theorem relay_forwards_in_order_witness :
    framesWritten (relayLoop sampleEnv []
        [RelayEvent.send ⟨1, "m1"⟩ none, RelayEvent.send ⟨1, "m2"⟩ none,
         RelayEvent.send ⟨2, "m3"⟩ none]).1
      = [(1, "<m1>"), (1, "<m2>"), (2, "<m3>")] ∧
    relayLoop sampleEnv []
        ([RelayEvent.send ⟨1, "m1"⟩ none] ++ RelayEvent.receive ⟨1, "ping"⟩ ::
          [RelayEvent.send ⟨1, "m2"⟩ none])
      = relayLoop sampleEnv []
        ([RelayEvent.send ⟨1, "m1"⟩ none] ++ [RelayEvent.send ⟨1, "m2"⟩ none]) ∧
    (relayLoop sampleEnv []
        ([RelayEvent.send ⟨1, "m1"⟩ none] ++ RelayEvent.receive ⟨1, "close"⟩ ::
          [RelayEvent.send ⟨1, "m2"⟩ none])).1
      = (relayLoop sampleEnv [] [RelayEvent.send ⟨1, "m1"⟩ none]).1 :=
  ⟨(relay_forwards_in_order sampleEnv [] _).1.trans (by decide),
   (relay_forwards_in_order sampleEnv [] []).2.1 _ _ ⟨1, "ping"⟩ (by decide),
   ((relay_forwards_in_order sampleEnv [] []).2.2 _ _ ⟨1, "close"⟩ (by decide)).1⟩

/-- C8: the relay loop of `LokiTail` has no case for `chanSignal`: a value a reader task
offers on it is not taken, so the loop goes on as if there had been none.  On the
events signal, upstream message `m`, the handler forwards `m` and has not returned:
no connection is closed. -/
theorem relay_ignores_signal :
    (∀ (env : Env) (filters : List String) (v : Int) (rest : List RelayEvent),
      relayLoop env filters (RelayEvent.signal v :: rest) = relayLoop env filters rest) ∧
    LokiTail sampleEnv ⟨[("app", "foo")]⟩
        [RelayEvent.signal 1, RelayEvent.send ⟨1, "m"⟩ none]
      = [Effect.LokiWebsocketClient [("query", "%7Bapp%3D%22foo%22%7D+%7C~+%22%22"),
            ("start", ""), ("limit", "500"), ("delay_for", "0")],
         Effect.LokiWebsocketServer,
         Effect.WriteMessage 1 "<m>" none] :=
  ⟨fun _ _ _ _ => rfl, by decide⟩

/-! ## The export loop -/

theorem exportRound_calls (env : Env) (dsc : Bool) (limit : Int) (direction : String)
    (call : Nat) (st : ExportState) :
    storeCalls (exportRound env dsc limit direction call st).1
      = [(roundArgs limit direction st, env.QueryRange call (roundArgs limit direction st))] := by
  unfold exportRound
  simp only [← roundArgs.eq_1]
  cases h : env.QueryRange call (roundArgs limit direction st) with
  | none => simp [storeCalls]
  | some results =>
    simp only []
    split <;> simp [storeCalls, List.filterMap_append, List.filterMap_map]

theorem exportRound_written (env : Env) (dsc : Bool) (limit : Int) (direction : String)
    (call : Nat) (st : ExportState) :
    written (exportRound env dsc limit direction call st).1
      = pageWrites env dsc (env.QueryRange call (roundArgs limit direction st)) := by
  unfold exportRound
  simp only [← roundArgs.eq_1]
  cases h : env.QueryRange call (roundArgs limit direction st) with
  | none => simp [written, pageWrites]
  | some results =>
    simp only [pageWrites]
    split
    · simp only [written, List.filterMap_append, List.filterMap_map]
      have hcomp : ((fun e => match e with
            | Effect.WriteString s => some s
            | _ => none) ∘ fun message : LokiMessage => Effect.WriteString message.Message)
          = some ∘ fun m : LokiMessage => m.Message := by
        funext m
        rfl
      rw [hcomp, List.filterMap_eq_map]
      simp
    · simp [written]

theorem exportRound_continues (env : Env) (dsc : Bool) (limit : Int) (direction : String)
    (call : Nat) (st : ExportState) :
    (exportRound env dsc limit direction call st).2.2
      = (env.QueryRange call (roundArgs limit direction st)).isSome := by
  unfold exportRound
  simp only [← roundArgs.eq_1]
  cases h : env.QueryRange call (roundArgs limit direction st) with
  | none => simp
  | some results =>
    simp only []
    split <;> simp

theorem advance_frame (dsc : Bool) (st : ExportState) (sorted : List LokiMessage) :
    (advance dsc st sorted).index = st.index ∧ (advance dsc st sorted).length = st.length ∧
      (advance dsc st sorted).queryExpr = st.queryExpr := by
  unfold advance
  cases sorted.getLast? with
  | none => simp
  | some last => cases dsc <;> simp

theorem exportRound_state (env : Env) (dsc : Bool) (limit : Int) (direction : String)
    (call : Nat) (st : ExportState) :
    (exportRound env dsc limit direction call st).2.1.index = st.index ∧
    (exportRound env dsc limit direction call st).2.1.queryExpr = url.QueryEscape st.queryExpr ∧
    (∀ results, env.QueryRange call (roundArgs limit direction st) = some results →
      (exportRound env dsc limit direction call st).2.1.length
        = (extractMessages results).length) := by
  unfold exportRound
  simp only [← roundArgs.eq_1]
  cases h : env.QueryRange call (roundArgs limit direction st) with
  | none => simp
  | some results =>
    simp only []
    split <;> simp [advance_frame]

theorem exportLoop_succ (env : Env) (dsc : Bool) (limit : Int) (direction : String)
    (fuel call : Nat) (st : ExportState) :
    exportLoop env dsc limit direction (fuel + 1) call st =
      if st.index ≥ 10 then some ([], st)
      else if st.length = 0 then some ([], { st with index := st.index + 1 })
      else if (exportRound env dsc limit direction call { st with index := st.index + 1 }).2.2
      then
        (exportLoop env dsc limit direction fuel (call + 1)
          (exportRound env dsc limit direction call { st with index := st.index + 1 }).2.1).map
          fun p =>
            ((exportRound env dsc limit direction call { st with index := st.index + 1 }).1
              ++ p.1, p.2)
      else
        some ((exportRound env dsc limit direction call { st with index := st.index + 1 }).1,
          (exportRound env dsc limit direction call { st with index := st.index + 1 }).2.1) := by
  rw [exportLoop]
  by_cases h1 : st.index ≥ 10
  · simp [h1]
  · by_cases h2 : st.length = 0
    · simp [h1, h2]
    · simp only [h1, h2, if_false]
      rcases hr : exportRound env dsc limit direction call { st with index := st.index + 1 }
        with ⟨effects, st2, cont⟩
      cases cont with
      | false => simp
      | true =>
        simp only [if_true]
        cases exportLoop env dsc limit direction fuel (call + 1) st2 with
        | none => simp
        | some p => simp

theorem storeCalls_append (a b : List Effect) :
    storeCalls (a ++ b) = storeCalls a ++ storeCalls b := by
  simp [storeCalls, List.filterMap_append]

theorem written_append (a b : List Effect) : written (a ++ b) = written a ++ written b := by
  simp [written, List.filterMap_append]

theorem pageEmpty_iff_length (results : List Stream) :
    pageEmpty (some results) = true ↔ (extractMessages results).length = 0 := by
  simp [pageEmpty]

theorem exportLoop_facts (env : Env) (dsc : Bool) (limit : Int) (direction : String) :
    ∀ (fuel call : Nat) (st : ExportState), st.index ≤ 10 → 10 - st.index < fuel →
      ∃ effects final, exportLoop env dsc limit direction fuel call st = some (effects, final) ∧
        LoopFacts env dsc limit direction call st effects := by
  intro fuel
  induction fuel with
  | zero => intro call st _ h; omega
  | succ fuel ih =>
    intro call st hidx hfuel
    rw [exportLoop_succ]
    by_cases h1 : st.index ≥ 10
    · simp only [h1, if_true]
      refine ⟨[], st, rfl, ?_⟩
      constructor <;> simp [storeCalls, written]
      intro hlt
      omega
    · by_cases h2 : st.length = 0
      · simp only [h1, h2, if_true, if_false]
        refine ⟨[], _, rfl, ?_⟩
        constructor <;> simp [storeCalls, written, h2]
      · simp only [h1, h2, if_false]
        have hargs : roundArgs limit direction { st with index := st.index + 1 }
            = roundArgs limit direction st := rfl
        have hcalls := exportRound_calls env dsc limit direction call
          { st with index := st.index + 1 }
        have hwritten := exportRound_written env dsc limit direction call
          { st with index := st.index + 1 }
        have hcont := exportRound_continues env dsc limit direction call
          { st with index := st.index + 1 }
        obtain ⟨hindex, hexpr, hlength⟩ := exportRound_state env dsc limit direction call
          { st with index := st.index + 1 }
        rw [hargs] at hcalls hwritten hcont hlength
        simp only at hindex hexpr
        cases hres : env.QueryRange call (roundArgs limit direction st) with
        | none =>
          rw [hres] at hcalls hwritten hcont
          simp only [Option.isSome_none] at hcont
          simp only [hcont, Bool.false_eq_true, if_false]
          refine ⟨_, _, rfl, ?_⟩
          constructor
          · rw [hcalls]; simp; omega
          · intro h; exact absurd h h2
          · intro _ _; rw [hcalls]; simp [hres]
          · rw [hcalls]; simp
          · rw [hcalls]; simp [pageEmpty]
          · rw [hcalls]
            intro i r h
            cases i with
            | zero => simp at h; subst h; simpa using hres.symm
            | succ i => simp at h
          · rw [hcalls]
            intro i r h
            cases i with
            | zero => simp at h; subst h; simp [roundArgs]
            | succ i => simp at h
          · rw [hcalls]; simp [roundArgs]
          · rw [hcalls, hwritten]; simp
        | some results =>
          rw [hres] at hcalls hwritten hcont
          simp only [Option.isSome_some] at hcont
          have hlen := hlength results hres
          obtain ⟨rest, final, hloop, facts⟩ := ih (call + 1)
            (exportRound env dsc limit direction call { st with index := st.index + 1 }).2.1
            (by rw [hindex]; omega) (by rw [hindex]; omega)
          simp only [hcont, if_true, hloop, Option.map_some']
          refine ⟨_, final, rfl, ?_⟩
          have hrest0 : (extractMessages results).length = 0 → storeCalls rest = [] := by
            intro h0
            have := facts.nothing (by rw [hlen]; exact h0)
            simp [this, storeCalls]
          constructor
          · rw [storeCalls_append, hcalls]
            have := facts.calls_le
            rw [hindex] at this
            simp; omega
          · intro h; exact absurd h h2
          · intro _ _; rw [storeCalls_append, hcalls]; simp [hres]
          · rw [storeCalls_append, hcalls]
            intro r hr
            cases hrest : storeCalls rest with
            | nil => rw [hrest] at hr; simp at hr
            | cons x xs =>
              rw [hrest] at hr
              simp only [List.singleton_append, List.dropLast_cons₂, List.mem_cons] at hr
              rcases hr with rfl | hr
              · cases hp : pageEmpty (some results) with
                | false => rfl
                | true =>
                  have := hrest0 ((pageEmpty_iff_length results).mp hp)
                  rw [hrest] at this
                  exact absurd this (List.cons_ne_nil _ _)
              · exact facts.nonempty_before_last r (by rw [hrest]; exact hr)
          · rw [storeCalls_append, hcalls]
            intro hlt r hr
            cases hrest : storeCalls rest with
            | nil =>
              rw [hrest] at hr hlt
              simp at hr hlt
              subst hr
              cases hp : pageEmpty (some results) with
              | true => rfl
              | false =>
                have hpos : (extractMessages results).length ≠ 0 := by
                  intro h0
                  rw [(pageEmpty_iff_length results).mpr h0] at hp
                  exact absurd hp (by simp)
                have := facts.first (by rw [hindex]; omega) (by rw [hlen]; exact hpos)
                rw [hrest] at this
                simp at this
            | cons x xs =>
              rw [hrest] at hr hlt
              simp only [List.singleton_append, List.getLast?_cons_cons] at hr
              apply facts.last_empty _ r (by rw [hrest]; exact hr)
              rw [hindex, hrest]
              simp at hlt ⊢
              omega
          · rw [storeCalls_append, hcalls]
            intro i r h
            cases i with
            | zero => simp at h; subst h; simpa using hres.symm
            | succ i =>
              simp only [List.singleton_append, List.getElem?_cons_succ] at h
              have := facts.results i r h
              rw [this]
              congr 1
              omega
          · rw [storeCalls_append, hcalls]
            intro i r h
            cases i with
            | zero => simp at h; subst h; simp [roundArgs]
            | succ i =>
              simp only [List.singleton_append, List.getElem?_cons_succ] at h
              have := facts.exprs i r h
              rw [this, hexpr, ← Function.iterate_succ_apply]
          · rw [storeCalls_append, hcalls]
            intro r hr
            simp only [List.singleton_append, List.mem_cons] at hr
            rcases hr with rfl | hr
            · simp [roundArgs]
            · exact facts.uniform r hr
          · rw [written_append, storeCalls_append, hcalls, hwritten, facts.writes]
            simp

theorem exportLoop_fuel_succ (env : Env) (dsc : Bool) (limit : Int) (direction : String) :
    ∀ (fuel call : Nat) (st : ExportState) (r : List Effect × ExportState),
      exportLoop env dsc limit direction fuel call st = some r →
      exportLoop env dsc limit direction (fuel + 1) call st = some r := by
  intro fuel
  induction fuel with
  | zero => intro call st r h; simp [exportLoop] at h
  | succ fuel ih =>
    intro call st r h
    rw [exportLoop_succ] at h ⊢
    by_cases h1 : st.index ≥ 10
    · simpa [h1] using h
    · by_cases h2 : st.length = 0
      · simpa [h1, h2] using h
      · simp only [h1, h2, if_false] at h ⊢
        split at h
        · rename_i hc
          simp only [hc, if_true]
          cases hl : exportLoop env dsc limit direction fuel (call + 1)
              (exportRound env dsc limit direction call { st with index := st.index + 1 }).2.1 with
          | none => rw [hl] at h; simp at h
          | some p =>
            rw [hl] at h
            rw [ih _ _ p hl]
            exact h
        · rename_i hc
          simp only [hc, if_false]
          exact h

theorem exportLoop_fuel_le (env : Env) (dsc : Bool) (limit : Int) (direction : String)
    (fuel fuel2 call : Nat) (st : ExportState) (r : List Effect × ExportState)
    (hle : fuel ≤ fuel2) (h : exportLoop env dsc limit direction fuel call st = some r) :
    exportLoop env dsc limit direction fuel2 call st = some r := by
  induction fuel2, hle using Nat.le_induction with
  | base => exact h
  | succ n _ ih => exact exportLoop_fuel_succ env dsc limit direction n call st r ih

theorem extractMessages_length_le (results : List Stream) :
    (extractMessages results).length ≤ recordCount (some results) := by
  induction results with
  | nil => simp [extractMessages, recordCount]
  | cons s rest ih =>
    simp only [extractMessages, recordCount, List.flatMap_cons, List.length_append,
      List.map_cons, List.sum_cons] at ih ⊢
    have := List.length_filterMap_le (fun v : String × String =>
      if (strings.Trim v.2 "\n").length = 0 then none
      else some ({ Timestamp := v.1, Message := v.2 } : LokiMessage)) s.values
    omega

theorem pageWrites_length_le (env : Env) (dsc : Bool) (result : QueryResult)
    (hsort : ∀ less l, (env.sortSort less l).length = l.length) :
    (pageWrites env dsc result).length ≤ recordCount result := by
  cases result with
  | none => simp [pageWrites]
  | some results =>
    simp only [pageWrites]
    split
    · rw [List.length_map]
      have : (sortPage env dsc (extractMessages results)).length
          = (extractMessages results).length := by
        unfold sortPage
        split <;> exact hsort _ _
      rw [this]
      exact extractMessages_length_le results
    · simp

theorem pageWrites_of_empty (env : Env) (dsc : Bool) (result : QueryResult)
    (h : pageEmpty result = true) : pageWrites env dsc result = [] := by
  cases result with
  | none => rfl
  | some results =>
    have := (pageEmpty_iff_length results).mp h
    simp [pageWrites, this]

theorem length_flatMap_le {α β : Type} (f : α → List β) (n : Nat) (l : List α)
    (h : ∀ x ∈ l, (f x).length ≤ n) : (l.flatMap f).length ≤ n * l.length := by
  induction l with
  | nil => simp
  | cons a rest ih =>
    have h1 := h a (List.mem_cons_self _ _)
    have h2 := ih fun x hx => h x (List.mem_cons_of_mem _ hx)
    simp only [List.flatMap_cons, List.length_append, List.length_cons]
    rw [Nat.mul_succ]
    omega

theorem findIdx_of_last {α : Type} (p : α → Bool) (l : List α) (a : α)
    (h : ∀ x ∈ l, p x = false) :
    (l ++ [a]).findIdx p = if p a then l.length else l.length + 1 := by
  induction l with
  | nil => cases hp : p a <;> simp [List.findIdx_cons, hp]
  | cons b rest ih =>
    have hb := h b (List.mem_cons_self _ _)
    have := ih fun x hx => h x (List.mem_cons_of_mem _ hx)
    rw [List.cons_append, List.findIdx_cons, hb, this]
    cases hp : p a <;> simp

theorem length_eq_min_findIdx {α : Type} (p : α → Bool) (l : List α) (hne : l ≠ [])
    (hle : l.length ≤ 10) (hinit : ∀ x ∈ l.dropLast, p x = false)
    (hlast : l.length < 10 → ∀ x, l.getLast? = some x → p x = true) :
    l.length = min 10 (l.findIdx p + 1) := by
  have hsplit := List.dropLast_append_getLast hne
  have hlen : l.length = l.dropLast.length + 1 := by
    conv_lhs => rw [← hsplit]
    simp
  have hidx := findIdx_of_last p l.dropLast (l.getLast hne) hinit
  rw [hsplit] at hidx
  rw [hidx]
  cases hp : p (l.getLast hne) with
  | true =>
    simp only [if_true]
    omega
  | false =>
    simp only [Bool.false_eq_true, if_false]
    by_cases hlt : l.length < 10
    · have := hlast hlt (l.getLast hne) (List.getLast?_eq_getLast _ hne)
      rw [hp] at this
      exact absurd this (by simp)
    · omega

theorem LokiExportWith_eq (fuel : Nat) (env : Env) (c : Context)
    (hne : queryExprArray env c ≠ []) (hmkdir : env.mkdirErr = none)
    (effects : List Effect) (final : ExportState)
    (hloop : exportLoop env (boolQuery c "dsc" "true") 5000
      (directionOf (boolQuery c "dsc" "true")) fuel 0 (exportInit env c) = some (effects, final)) :
    LokiExportWith fuel env c = some
        ([Effect.Command ("mkdir -p " ++ (env.Getwd ++ "/static/export")),
          Effect.Create (env.Getwd ++ "/static/export/" ++ (env.Now ++ ".log"))] ++
          (match env.createErr with
            | some err => [Effect.Log4Zap zap.ErrorLevel ("open loki csv file error, " ++ err)]
            | none => []) ++
          [Effect.WriteString "\uFEFF"] ++ effects ++
          [Effect.JSON 200 (Body.export true (env.Now ++ ".log")),
           Effect.Close Resource.file]) := by
  have hlen : (queryExprArray env c).length ≠ 0 := by
    simpa [List.length_eq_zero] using hne
  simp only [LokiExportWith, hlen, if_false, hmkdir, hloop]

theorem createLog_logs (env : Env) :
    ∀ e ∈ (match env.createErr with
        | some err => [Effect.Log4Zap zap.ErrorLevel ("open loki csv file error, " ++ err)]
        | none => []),
      ∃ level msg, e = Effect.Log4Zap level msg := by
  cases env.createErr with
  | none => simp
  | some err => simp

theorem storeCalls_logs (l : List Effect)
    (h : ∀ e ∈ l, ∃ level msg, e = Effect.Log4Zap level msg) :
    storeCalls l = [] ∧ written l = [] := by
  induction l with
  | nil => simp [storeCalls, written]
  | cons e rest ih =>
    obtain ⟨level, msg, rfl⟩ := h _ (List.mem_cons_self _ _)
    have := ih fun x hx => h x (List.mem_cons_of_mem _ hx)
    simp only [storeCalls, written] at this ⊢
    simp [this]

theorem strLt_asymm : ∀ a b : List Char, strLt a b = true → strLt b a = false := by
  intro a
  induction a with
  | nil =>
    intro b h
    cases b <;> simp [strLt] at h ⊢
  | cons x xs ih =>
    intro b h
    cases b with
    | nil => simp [strLt] at h
    | cons y ys =>
      simp only [strLt] at h ⊢
      by_cases h1 : x.toNat < y.toNat
      · have h2 : ¬ y.toNat < x.toNat := by omega
        simp [h1, h2]
      · by_cases h2 : y.toNat < x.toNat
        · simp [h1, h2] at h
        · simp only [h1, h2, if_false] at h ⊢
          exact ih ys h

theorem strLt_negtrans : ∀ a b c : List Char,
    strLt b a = false → strLt c b = false → strLt c a = false := by
  intro a
  induction a with
  | nil =>
    intro b c h1 h2
    cases b with
    | nil => exact h2
    | cons y ys => cases c <;> simp [strLt] at h1 h2 ⊢
  | cons x xs ih =>
    intro b c h1 h2
    cases b with
    | nil => simp [strLt] at h1
    | cons y ys =>
      cases c with
      | nil => simp [strLt] at h2
      | cons z zs =>
        simp only [strLt] at h1 h2 ⊢
        by_cases hyx : y.toNat < x.toNat
        · simp [hyx] at h1
        · by_cases hzy : z.toNat < y.toNat
          · simp [hzy] at h2
          · simp only [hyx, hzy, if_false] at h1 h2
            by_cases hxy : x.toNat < y.toNat
            · have h3 : ¬ z.toNat < x.toNat := by omega
              have h4 : x.toNat < z.toNat := by omega
              simp [h3, h4]
            · by_cases hyz : y.toNat < z.toNat
              · have h3 : ¬ z.toNat < x.toNat := by omega
                have h4 : x.toNat < z.toNat := by omega
                simp [h3, h4]
              · simp only [hxy, hyz, if_false] at h1 h2
                have h3 : ¬ z.toNat < x.toNat := by omega
                have h4 : ¬ x.toNat < z.toNat := by omega
                simp only [h3, h4, if_false]
                exact ih ys zs h1 h2

theorem foldl_dec (l : List Char) (k : Nat) :
    l.foldl (fun n c => 10 * n + (c.toNat - 48)) k
      = k * 10 ^ l.length + l.foldl (fun n c => 10 * n + (c.toNat - 48)) 0 := by
  induction l generalizing k with
  | nil => simp
  | cons c cs ih =>
    simp only [List.foldl_cons, List.length_cons]
    rw [ih (10 * k + (c.toNat - 48)), ih (10 * 0 + (c.toNat - 48))]
    ring

theorem foldl_dec_lt (l : List Char) (h : ∀ c ∈ l, 48 ≤ c.toNat ∧ c.toNat ≤ 57) :
    l.foldl (fun n c => 10 * n + (c.toNat - 48)) 0 < 10 ^ l.length := by
  induction l with
  | nil => simp
  | cons c cs ih =>
    have hc := h c (List.mem_cons_self _ _)
    have hcs := ih fun x hx => h x (List.mem_cons_of_mem _ hx)
    simp only [List.foldl_cons, List.length_cons]
    rw [foldl_dec]
    have hpos : 0 < 10 ^ cs.length := Nat.pow_pos (by decide)
    have : (10 * 0 + (c.toNat - 48)) * 10 ^ cs.length ≤ 9 * 10 ^ cs.length :=
      Nat.mul_le_mul_right _ (by omega)
    rw [pow_succ]
    omega

theorem strLt_iff_decVal : ∀ a b : List Char, a.length = b.length →
    (∀ c ∈ a, 48 ≤ c.toNat ∧ c.toNat ≤ 57) → (∀ c ∈ b, 48 ≤ c.toNat ∧ c.toNat ≤ 57) →
    (strLt a b = true ↔
      a.foldl (fun n c => 10 * n + (c.toNat - 48)) 0
        < b.foldl (fun n c => 10 * n + (c.toNat - 48)) 0) := by
  intro a
  induction a with
  | nil =>
    intro b hlen _ _
    cases b with
    | nil => simp [strLt]
    | cons y ys => simp at hlen
  | cons x xs ih =>
    intro b hlen ha hb
    cases b with
    | nil => simp at hlen
    | cons y ys =>
      have hlen2 : xs.length = ys.length := by simpa using hlen
      have hx := ha x (List.mem_cons_self _ _)
      have hy := hb y (List.mem_cons_self _ _)
      have hxs : ∀ c ∈ xs, 48 ≤ c.toNat ∧ c.toNat ≤ 57 :=
        fun c hc => ha c (List.mem_cons_of_mem _ hc)
      have hys : ∀ c ∈ ys, 48 ≤ c.toNat ∧ c.toNat ≤ 57 :=
        fun c hc => hb c (List.mem_cons_of_mem _ hc)
      have hrec := ih ys hlen2 hxs hys
      have hbx := foldl_dec_lt xs hxs
      have hby := foldl_dec_lt ys hys
      simp only [strLt, List.foldl_cons]
      rw [foldl_dec xs, foldl_dec ys, hlen2] at *
      simp only [Nat.mul_zero, Nat.zero_add]
      by_cases h1 : x.toNat < y.toNat
      · simp only [h1, if_true, true_iff]
        have : (x.toNat - 48 + 1) * 10 ^ ys.length ≤ (y.toNat - 48) * 10 ^ ys.length :=
          Nat.mul_le_mul_right _ (by omega)
        rw [Nat.add_mul] at this
        omega
      · by_cases h2 : y.toNat < x.toNat
        · simp only [h1, h2, if_false, if_true, Bool.false_eq_true, false_iff]
          have : (y.toNat - 48 + 1) * 10 ^ ys.length ≤ (x.toNat - 48) * 10 ^ ys.length :=
            Nat.mul_le_mul_right _ (by omega)
          rw [Nat.add_mul] at this
          omega
        · simp only [h1, h2, if_false]
          have heq : x.toNat = y.toNat := by omega
          rw [heq, hrec]
          omega

/-! ## One export round -/

theorem exportRound_page (env : Env) (dsc : Bool) (limit : Int) (direction : String)
    (call : Nat) (st : ExportState) (results : List Stream)
    (hres : env.QueryRange call (roundArgs limit direction st) = some results)
    (hne : extractMessages results ≠ []) :
    (exportRound env dsc limit direction call st).2.1
      = advance dsc { st with queryExpr := url.QueryEscape st.queryExpr,
                              length := (extractMessages results).length }
          (sortPage env dsc (extractMessages results)) := by
  have hpos : (extractMessages results).length > 0 := List.length_pos.mpr hne
  unfold exportRound
  simp only [← roundArgs.eq_1, hres, hpos, if_true]

theorem last_of_pairwise {α : Type} (R : α → α → Prop) (l : List α) (last : α)
    (hp : l.Pairwise R) (hl : l.getLast? = some last) : ∀ m ∈ l, m = last ∨ R m last := by
  have hne : l ≠ [] := by
    intro h
    rw [h] at hl
    simp at hl
  have hsplit := List.dropLast_append_getLast hne
  have hlast : l.getLast hne = last := by
    rw [List.getLast?_eq_getLast _ hne] at hl
    exact Option.some.inj hl
  rw [hlast] at hsplit
  rw [← hsplit] at hp
  intro m hm
  rw [← hsplit] at hm
  rcases List.mem_append.mp hm with h | h
  · right
    exact (List.pairwise_append.mp hp).2.2 m h last (List.mem_singleton.mpr rfl)
  · left
    exact List.mem_singleton.mp h

theorem decVal_le_of_not_strLt (n : Nat) (a b : String) (ha : IsTimestamp n a)
    (hb : IsTimestamp n b) (h : strLt a.data b.data = false) : decVal b ≤ decVal a := by
  have := strLt_iff_decVal a.data b.data (by rw [ha.1, hb.1]) ha.2 hb.2
  unfold decVal
  by_contra hlt
  have := this.mpr (by omega)
  rw [h] at this
  exact absurd this (by simp)

theorem addFiltersExport_raw (filters : List String) (queryExpr : String) :
    addFiltersExport queryExpr filters
      = queryExpr ++ String.join (filters.map fun f => " |~ \"" ++ f ++ "\"") := by
  induction filters generalizing queryExpr with
  | nil => simp [addFiltersExport, String.join]
  | cons f rest ih =>
    simp [addFiltersExport, ih, Trim_empty_cutset, join_cons, String.append_assoc]

/-- C5: `LokiExport` embeds every filter as it was given, without the escaping of
`LokiList`.  For the label `app=foo` and the single filter `\d`, a valid pattern,
`LokiList` sends the store the expression with the escaped filter,
`{app="foo"} |~ "\\d"`, and `LokiExport` sends on its first call the expression with
the raw filter, `{app="foo"} |~ "\d"`; the two differ. -/
theorem LokiExport_filter_not_escaped :
    (∀ (filters : List String) (queryExpr : String),
      addFiltersExport queryExpr filters
        = queryExpr ++ String.join (filters.map fun f => " |~ \"" ++ f ++ "\"")) ∧
    (storeCalls (LokiList sampleEnv ⟨[("app", "foo"), ("filters[]", "\\d")]⟩)).map
        (fun call => call.1.queryExpr)
      = [url.QueryEscape "\x7bapp=\"foo\"\x7d |~ \"\\\\d\""] ∧
    (LokiExport sampleEnv ⟨[("app", "foo"), ("filters[]", "\\d")]⟩).map
        (fun effects => ((storeCalls effects).map fun call => call.1.queryExpr).head?)
      = some (some (url.QueryEscape "\x7bapp=\"foo\"\x7d |~ \"\\d\"")) ∧
    url.QueryEscape "\x7bapp=\"foo\"\x7d |~ \"\\\\d\""
      ≠ url.QueryEscape "\x7bapp=\"foo\"\x7d |~ \"\\d\"" :=
  ⟨addFiltersExport_raw, by decide, by decide, by decide⟩

theorem QueryEscape_selector (s : String) :
    (url.QueryEscape ("\x7b" ++ s)).data = '%' :: '7' :: 'B' :: (url.QueryEscape s).data := by
  have h : url.escapeChar '\x7b' = ['%', '7', 'B'] := by decide
  have hd : ("\x7b" : String).data = ['\x7b'] := rfl
  simp only [url.QueryEscape, String.data_append, hd, List.singleton_append,
    List.flatMap_cons, h]
  rfl

theorem QueryEscape_twice_ne (s : String) :
    url.QueryEscape (url.QueryEscape ("\x7b" ++ s)) ≠ url.QueryEscape ("\x7b" ++ s) := by
  intro h
  have h1 := congrArg String.data h
  have hp : url.escapeChar '%' = ['%', '2', '5'] := by decide
  have h2 : ∀ x : String, (url.QueryEscape x).data = x.data.flatMap url.escapeChar :=
    fun _ => rfl
  rw [h2 (url.QueryEscape _), QueryEscape_selector, List.flatMap_cons, hp] at h1
  simp at h1

/-- C9: a round of the export loop sends the store the URL-encoding of the current
`queryExpr` and keeps the encoded text as the new `queryExpr`, so every later round
encodes once more; an expression that starts with an opening brace, as every built
expression does, changes when it is encoded a second time.  On a request with the label
`app=foo` and a store whose first page is not empty, `LokiExport` makes two store
calls: the expression of the first is the URL-encoded built expression and the
expression of the second is that expression URL-encoded once more; limit and direction
are the same. -/
theorem LokiExport_reencodes_expression :
    (∀ (env : Env) (dsc : Bool) (limit : Int) (direction : String) (call : Nat)
        (st : ExportState),
      (storeCalls (exportRound env dsc limit direction call st).1).map
          (fun r => r.1.queryExpr) = [url.QueryEscape st.queryExpr] ∧
      (exportRound env dsc limit direction call st).2.1.queryExpr
        = url.QueryEscape st.queryExpr) ∧
    (∀ s : String,
      url.QueryEscape (url.QueryEscape ("\x7b" ++ s)) ≠ url.QueryEscape ("\x7b" ++ s)) ∧
    (LokiExport sampleEnv ⟨[("app", "foo")]⟩).map
        (fun effects => (storeCalls effects).map fun call => call.1)
      = some [⟨"%7Bapp%3D%22foo%22%7D", 5000, "", "", "backward"⟩,
              ⟨"%257Bapp%253D%2522foo%2522%257D", 5000, "", "1600000000000000001",
                "backward"⟩] := by
  refine ⟨?_, QueryEscape_twice_ne, by decide⟩
  intro env dsc limit direction call st
  refine ⟨?_, (exportRound_state env dsc limit direction call st).2.1⟩
  rw [exportRound_calls]
  rfl

/-! ## The theorems on the test data -/

theorem sampleSort_contract : SortContract sampleEnv.sortSort := by
  intro less l
  refine ⟨List.perm_insertionSort _ l, ?_⟩
  intro hasymm htrans
  have htotal : IsTotal LokiMessage (fun a b => ¬ less b a = true) := by
    constructor
    intro a b
    cases h : less b a with
    | false => left; simp
    | true => right; simp [hasymm b a h]
  have htr : IsTrans LokiMessage (fun a b => ¬ less b a = true) := by
    constructor
    intro a b c h1 h2
    have := htrans a b c (by simpa using h1) (by simpa using h2)
    simp [this]
  have hsorted := List.sorted_insertionSort (fun a b => ¬ less b a = true) l
  refine List.Pairwise.imp ?_ hsorted
  intro a b h
  simpa using h

theorem sampleStore_bounded :
    ∀ n args, recordCount (sampleEnv.QueryRange n args) ≤ 5000 := by
  intro n args
  by_cases h : n = 0
  · simp [sampleEnv, h, recordCount]
  · simp [sampleEnv, h, recordCount]

end Dagger
